import Mathlib

/-!
# GrobiSplitter: a verified shallow embedding of `splitter.py`

This file embeds the module-aware package classification and partition
engine of GrobiSplitter (`splitter.py`) in Lean 4 and proves properties
of it.  Python strings are modelled as `List Char` (the type `Str`),
Python lists as Lean lists, Python sets as duplicate-free lists built
with `setAdd` (mirroring `set.add`), and Python dicts as association
lists with insert-or-overwrite semantics (`dictInsert`), which preserves
first-insertion key order exactly as CPython dicts do.  Effectful code
(`sys.exit`, `print`, filesystem calls) is modelled by explicit state
passing over a `World` record.
-/

set_option autoImplicit false

namespace GrobiSplitter

/-- Python strings are modelled as lists of characters. -/
abbrev Str := List Char

/-- Split a character list at every occurrence of the separator `c`.
Mirrors Python `s.split(c)` (no maxsplit): the result is the list of
chunks between separators, always non-empty, with empty chunks kept. -/
def splitOnChar (c : Char) : Str → List Str
  | [] => [[]]
  | x :: xs =>
    if x = c then [] :: splitOnChar c xs
    else
      match splitOnChar c xs with
      | [] => [[x]]
      | y :: ys => (x :: y) :: ys

/-- Join chunks with a single separator character, the inverse of
`splitOnChar`; mirrors Python `c.join(chunks)`. -/
def joinSep (c : Char) : List Str → Str
  | [] => []
  | [x] => x
  | x :: xs => x ++ c :: joinSep c xs

/-- Python `s.rsplit(c, 2)`: split from the right at the last two
occurrences of `c`; everything to the left of the second-to-last
separator stays joined in the first chunk. -/
def rsplit2 (c : Char) (s : Str) : List Str :=
  let parts := splitOnChar c s
  if parts.length ≤ 3 then parts
  else joinSep c (parts.take (parts.length - 2)) :: parts.drop (parts.length - 2)

/-- Python `s.split(c, 1)`: split at the first occurrence of `c` only. -/
def split1 (c : Char) (s : Str) : List Str :=
  match splitOnChar c s with
  | [] => []
  | x :: rest => if rest = [] then [x] else [x, joinSep c rest]

/-- Embedding of `_get_filename` (splitter.py lines 66-69):

    n, ev, ra = nevra.rsplit('-', 2)
    ev = ev.split(':', 1)[1]
    return 'Packages/%s-%s-%s.rpm' % (n, ev, ra)

`none` models an escaping Python exception: a `ValueError` when the
unpack of `rsplit('-', 2)` does not yield three fields, an `IndexError`
when `ev` contains no colon. -/
def getFilename (nevra : Str) : Option Str :=
  match rsplit2 '-' nevra with
  | [n, ev, ra] =>
    match split1 ':' ev with
    | [_, v] => some ("Packages/".toList ++ n ++ '-' :: v ++ '-' :: ra ++ ".rpm".toList)
    | _ => none
  | _ => none

/-! ## Splitting lemmas -/

theorem splitOnChar_ne_nil (c : Char) (s : Str) : splitOnChar c s ≠ [] := by
  induction s with
  | nil => simp [splitOnChar]
  | cons x xs ih =>
    simp only [splitOnChar]
    split
    · simp
    · cases h : splitOnChar c xs with
      | nil => simp
      | cons y ys => simp [h]

theorem splitOnChar_of_not_mem {c : Char} {s : Str} (h : c ∉ s) :
    splitOnChar c s = [s] := by
  induction s with
  | nil => rfl
  | cons x xs ih =>
    simp only [List.mem_cons, not_or] at h
    simp only [splitOnChar, if_neg (Ne.symm h.1), ih h.2]

theorem splitOnChar_append (c : Char) (xs ys : Str) :
    splitOnChar c (xs ++ c :: ys) = splitOnChar c xs ++ splitOnChar c ys := by
  induction xs with
  | nil => simp [splitOnChar]
  | cons x xs ih =>
    by_cases hx : x = c
    · simp [splitOnChar, hx, ih]
    · cases h : splitOnChar c xs with
      | nil => exact absurd h (splitOnChar_ne_nil c xs)
      | cons y ys' =>
        simp only [List.cons_append, splitOnChar, if_neg hx, List.append_eq]
        rw [ih, h]
        simp

theorem joinSep_splitOnChar (c : Char) (s : Str) :
    joinSep c (splitOnChar c s) = s := by
  induction s with
  | nil => rfl
  | cons x xs ih =>
    by_cases hx : x = c
    · subst hx
      simp only [splitOnChar, if_pos rfl]
      cases h : splitOnChar x xs with
      | nil => exact absurd h (splitOnChar_ne_nil x xs)
      | cons y ys => rw [h] at ih; simp [joinSep, ih]
    · simp only [splitOnChar, if_neg hx]
      cases h : splitOnChar c xs with
      | nil => exact absurd h (splitOnChar_ne_nil c xs)
      | cons y ys =>
        rw [h] at ih
        cases ys with
        | nil => simp_all [joinSep]
        | cons z zs => simp_all [joinSep]

theorem length_splitOnChar (c : Char) (s : Str) :
    (splitOnChar c s).length = s.count c + 1 := by
  induction s with
  | nil => simp [splitOnChar]
  | cons x xs ih =>
    by_cases hx : x = c
    · simp [splitOnChar, hx, ih, List.count_cons]
    · simp only [splitOnChar, if_neg hx]
      cases h : splitOnChar c xs with
      | nil => exact absurd h (splitOnChar_ne_nil c xs)
      | cons y ys =>
        rw [h] at ih
        simp only [List.length_cons] at ih ⊢
        rw [List.count_cons]
        simp [hx, ih]

/-- `rsplit2` on a string of the shape `s-ev-ra` with the last two
fields separator-free returns exactly `[s, ev, ra]`. -/
theorem rsplit2_eq (c : Char) (s ev ra : Str) (hev : c ∉ ev) (hra : c ∉ ra) :
    rsplit2 c (s ++ c :: (ev ++ c :: ra)) = [s, ev, ra] := by
  have hsplit : splitOnChar c (s ++ c :: (ev ++ c :: ra))
      = splitOnChar c s ++ [ev, ra] := by
    rw [splitOnChar_append, splitOnChar_append,
      splitOnChar_of_not_mem hev, splitOnChar_of_not_mem hra]
    simp
  unfold rsplit2
  rw [hsplit]
  cases h : splitOnChar c s with
  | nil => exact absurd h (splitOnChar_ne_nil c s)
  | cons p ps =>
    have hjoin : joinSep c (p :: ps) = s := by rw [← h, joinSep_splitOnChar]
    cases ps with
    | nil =>
      simp only [List.cons_append, List.nil_append, List.length_cons]
      norm_num
      simpa [joinSep] using hjoin
    | cons q qs =>
      have hlen : (p :: q :: qs ++ [ev, ra]).length = qs.length + 4 := by
        simp
      simp only [hlen, List.length_cons]
      have hgt : ¬ (qs.length + 4 ≤ 3) := by omega
      rw [if_neg hgt]
      have htake : qs.length + 4 - 2 = (p :: q :: qs).length := by simp
      rw [htake, List.take_left, List.drop_left, hjoin]

theorem split1_colon (e v : Str) (he : ':' ∉ e) :
    split1 ':' (e ++ ':' :: v) = [e, v] := by
  unfold split1
  rw [splitOnChar_append ':' e v, splitOnChar_of_not_mem he]
  simp [splitOnChar_ne_nil, joinSep_splitOnChar]

/-- C4, main direction: on a well-formed NEVRA `name-epoch:version-release.arch`
(the epoch:version and release.arch fields hyphen-free, the epoch colon-free),
`_get_filename` returns `Packages/name-version-release.arch.rpm`. -/
theorem getFilename_eq (n e v r a : Str)
    (he1 : ':' ∉ e) (he2 : '-' ∉ e) (hv : '-' ∉ v) (hr : '-' ∉ r) (ha : '-' ∉ a) :
    getFilename (n ++ '-' :: ((e ++ ':' :: v) ++ '-' :: (r ++ '.' :: a)))
      = some ("Packages/".toList ++ n ++ '-' :: v ++ '-' :: (r ++ '.' :: a)
          ++ ".rpm".toList) := by
  have hev : '-' ∉ e ++ ':' :: v := by
    simp only [List.mem_append, List.mem_cons, not_or]
    exact ⟨he2, by decide, hv⟩
  have hra : '-' ∉ r ++ '.' :: a := by
    simp only [List.mem_append, List.mem_cons, not_or]
    exact ⟨hr, by decide, ha⟩
  unfold getFilename
  rw [rsplit2_eq '-' n (e ++ ':' :: v) (r ++ '.' :: a) hev hra]
  simp only [split1_colon e v he1]

/-- C8: the derived file name (the part of the derived path between
`Packages/` and `.rpm`) splits back, from the right at the last two
hyphens, into the original `(name, version, release.arch)` triple. -/
theorem filename_roundtrip (n e v r a : Str)
    (he1 : ':' ∉ e) (he2 : '-' ∉ e) (hv : '-' ∉ v) (hr : '-' ∉ r) (ha : '-' ∉ a) :
    ∃ fname : Str,
      getFilename (n ++ '-' :: ((e ++ ':' :: v) ++ '-' :: (r ++ '.' :: a)))
        = some ("Packages/".toList ++ fname ++ ".rpm".toList) ∧
      rsplit2 '-' fname = [n, v, r ++ '.' :: a] := by
  refine ⟨n ++ '-' :: (v ++ '-' :: (r ++ '.' :: a)), ?_, ?_⟩
  · rw [getFilename_eq n e v r a he1 he2 hv hr ha]
    simp
  · have hra : '-' ∉ r ++ '.' :: a := by
      simp only [List.mem_append, List.mem_cons, not_or]
      exact ⟨hr, by decide, ha⟩
    exact rsplit2_eq '-' n v (r ++ '.' :: a) hv hra

/-- C9: on a NEVRA string with at least two hyphens (so the three-way
unpack succeeds) whose middle `epoch:version` field contains no colon,
`_get_filename` raises (modelled by `none`) instead of returning a path. -/
theorem getFilename_no_colon (nevra : Str) (h2 : 2 ≤ nevra.count '-') :
    ∃ x ev ra : Str, rsplit2 '-' nevra = [x, ev, ra] ∧
      (':' ∉ ev → getFilename nevra = none) := by
  have hlen : 3 ≤ (splitOnChar '-' nevra).length := by
    rw [length_splitOnChar]; omega
  have hstep : ∀ x ev ra : Str, rsplit2 '-' nevra = [x, ev, ra] → ':' ∉ ev →
      getFilename nevra = none := by
    intro x ev ra hs hcol
    unfold getFilename
    rw [hs]
    have : split1 ':' ev = [ev] := by
      unfold split1
      rw [splitOnChar_of_not_mem hcol]
      simp
    simp [this]
  by_cases hle : (splitOnChar '-' nevra).length ≤ 3
  · obtain ⟨x, ev, ra, hp⟩ := List.length_eq_three.mp (le_antisymm hle hlen)
    have hs : rsplit2 '-' nevra = [x, ev, ra] := by
      unfold rsplit2
      rw [hp]
      simp
    exact ⟨x, ev, ra, hs, hstep x ev ra hs⟩
  · have hdrop : ((splitOnChar '-' nevra).drop
        ((splitOnChar '-' nevra).length - 2)).length = 2 := by
      rw [List.length_drop]; omega
    obtain ⟨ev, ra, hd⟩ := List.length_eq_two.mp hdrop
    refine ⟨joinSep '-' ((splitOnChar '-' nevra).take
        ((splitOnChar '-' nevra).length - 2)), ev, ra, ?_, ?_⟩
    · unfold rsplit2
      rw [if_neg hle, hd]
    · intro hcol
      refine hstep (joinSep '-' ((splitOnChar '-' nevra).take
        ((splitOnChar '-' nevra).length - 2))) ev ra ?_ hcol
      unfold rsplit2
      rw [if_neg hle, hd]

/-! ## Sets, dicts and classification (`parse_repository` and helpers) -/

/-- Python `set.add`: append if absent, so the list stays duplicate-free
(the model fixes one concrete iteration order for the set). -/
def setAdd (s : List Str) (x : Str) : List Str :=
  if x ∈ s then s else s ++ [x]

/-- CPython dict assignment `d[k] = v`: overwrite the entry in place when
the key is present, else append; first-insertion key order is kept. -/
def dictInsert {α : Type} (k : Str) (v : α) : List (Str × α) → List (Str × α)
  | [] => [(k, v)]
  | kv :: rest => if kv.1 = k then (k, v) :: rest else kv :: dictInsert k v rest

/-- Python dict lookup `d[k]`. -/
def dictGet {α : Type} (k : Str) : List (Str × α) → Option α
  | [] => none
  | kv :: rest => if kv.1 = k then some kv.2 else dictGet k rest

/-- A value of the final partition dict: module entries hold Python lists
(duplicates kept), the `non_modular` entry holds a Python set. -/
inductive PkgColl where
  | plist : List Str → PkgColl
  | pset : List Str → PkgColl
deriving DecidableEq

/-- The package paths of a partition value, in iteration order. -/
def PkgColl.toList : PkgColl → List Str
  | .plist l => l
  | .pset l => l

/-- Embedding of `_parse_repository_non_modular` (lines 55-63): collect
into a set every package location of the index that is not claimed by a
module.  `index` abstracts the hawkey query over the package index. -/
def parseRepositoryNonModular (index : List Str) (modpkgset : List Str) : List Str :=
  index.foldl (fun pkgs loc => if loc ∈ modpkgset then pkgs else setAdd pkgs loc) []

/-- Embedding of `_get_modular_pkgset` (lines 94-101): the union, as a
set, of all module entries' package lists. -/
def getModularPkgset (mod : List (Str × List Str)) : List Str :=
  mod.foldl (fun pkgs kv => kv.2.foldl setAdd pkgs) []

/-- One step of `_parse_repository_modular`'s loop (lines 84-90): map
`_get_filename` over the stream's artifacts and assign the list to the
stream's NSVC key; `none` models an exception escaping the loop. -/
def modularStep (cts : List (Str × List Str)) (st : Str × List Str) :
    Option (List (Str × List Str)) :=
  (st.2.mapM getFilename).map (fun paths => dictInsert st.1 paths cts)

/-- Embedding of `_parse_repository_modular` (lines 72-91); `streams`
abstracts the module index as a list of (NSVC, artifact NEVRAs) pairs in
iteration order.  The YAML-failure paths (lines 78-81) are upstream of
this loop and are modelled by the caller supplying `streams` at all. -/
def parseRepositoryModular (streams : List (Str × List Str)) :
    Option (List (Str × List Str)) :=
  streams.foldlM modularStep []

/-- Embedding of the classification core of `parse_repository`
(lines 201-207): build the modular dict, compute the claimed-package
union and the non-modular set, and store the latter under the
`non_modular` key of the same dict. -/
def parse_repository (index : List Str) (streams : List (Str × List Str)) :
    Option (List (Str × PkgColl)) :=
  (parseRepositoryModular streams).map (fun mod =>
    let modpkgset := getModularPkgset mod
    let non_modular := parseRepositoryNonModular index modpkgset
    dictInsert "non_modular".toList (PkgColl.pset non_modular)
      (mod.map (fun kv => (kv.1, PkgColl.plist kv.2))))

/-! ### Set and dict lemmas -/

theorem mem_setAdd (s : List Str) (x y : Str) :
    y ∈ setAdd s x ↔ y ∈ s ∨ y = x := by
  unfold setAdd
  split
  · rename_i h
    constructor
    · exact Or.inl
    · rintro (hy | rfl)
      · exact hy
      · exact h
  · simp

theorem nodup_setAdd (s : List Str) (x : Str) (h : s.Nodup) :
    (setAdd s x).Nodup := by
  unfold setAdd
  split
  · exact h
  · rename_i hx
    simpa [List.nodup_append, h] using hx

theorem mem_foldl_setAdd (l : List Str) :
    ∀ (acc : List Str) (y : Str), y ∈ l.foldl setAdd acc ↔ y ∈ acc ∨ y ∈ l := by
  induction l with
  | nil => simp
  | cons x xs ih =>
    intro acc y
    simp only [List.foldl_cons, ih, mem_setAdd, List.mem_cons]
    tauto

theorem mem_parseRepositoryNonModular (index modpkgset : List Str) (y : Str) :
    y ∈ parseRepositoryNonModular index modpkgset ↔ y ∈ index ∧ y ∉ modpkgset := by
  unfold parseRepositoryNonModular
  suffices h : ∀ acc, y ∈ index.foldl
      (fun pkgs loc => if loc ∈ modpkgset then pkgs else setAdd pkgs loc) acc ↔
      y ∈ acc ∨ (y ∈ index ∧ y ∉ modpkgset) by
    simpa using h []
  induction index with
  | nil => simp
  | cons x xs ih =>
    intro acc
    simp only [List.foldl_cons, ih, List.mem_cons]
    split
    · rename_i hx
      constructor
      · rintro (hy | hy)
        · exact Or.inl hy
        · exact Or.inr ⟨Or.inr hy.1, hy.2⟩
      · rintro (hy | ⟨rfl | hy, hny⟩)
        · exact Or.inl hy
        · exact absurd hx hny
        · exact Or.inr ⟨hy, hny⟩
    · rename_i hx
      rw [mem_setAdd]
      constructor
      · rintro ((hy | rfl) | hy)
        · exact Or.inl hy
        · exact Or.inr ⟨Or.inl rfl, hx⟩
        · exact Or.inr ⟨Or.inr hy.1, hy.2⟩
      · rintro (hy | ⟨rfl | hy, hny⟩)
        · exact Or.inl (Or.inl hy)
        · exact Or.inl (Or.inr rfl)
        · exact Or.inr ⟨hy, hny⟩

theorem nodup_parseRepositoryNonModular (index modpkgset : List Str) :
    (parseRepositoryNonModular index modpkgset).Nodup := by
  unfold parseRepositoryNonModular
  suffices h : ∀ acc : List Str, acc.Nodup → (index.foldl
      (fun pkgs loc => if loc ∈ modpkgset then pkgs else setAdd pkgs loc) acc).Nodup by
    exact h [] List.nodup_nil
  induction index with
  | nil => exact fun acc h => h
  | cons x xs ih =>
    intro acc hacc
    simp only [List.foldl_cons]
    split
    · exact ih acc hacc
    · exact ih _ (nodup_setAdd acc x hacc)

theorem mem_getModularPkgset (mod : List (Str × List Str)) (y : Str) :
    y ∈ getModularPkgset mod ↔ ∃ kv ∈ mod, y ∈ kv.2 := by
  unfold getModularPkgset
  suffices h : ∀ acc, y ∈ mod.foldl (fun pkgs kv => kv.2.foldl setAdd pkgs) acc ↔
      y ∈ acc ∨ ∃ kv ∈ mod, y ∈ kv.2 by
    simpa using h []
  induction mod with
  | nil => simp
  | cons kv rest ih =>
    intro acc
    simp only [List.foldl_cons, ih, mem_foldl_setAdd, List.mem_cons]
    constructor
    · rintro ((hy | hy) | ⟨kv', hkv', hy⟩)
      · exact Or.inl hy
      · exact Or.inr ⟨kv, Or.inl rfl, hy⟩
      · exact Or.inr ⟨kv', Or.inr hkv', hy⟩
    · rintro (hy | ⟨kv', rfl | hkv', hy⟩)
      · exact Or.inl (Or.inl hy)
      · exact Or.inl (Or.inr hy)
      · exact Or.inr ⟨kv', hkv', hy⟩

theorem dictGet_dictInsert_self {α : Type} (k : Str) (v : α) (d : List (Str × α)) :
    dictGet k (dictInsert k v d) = some v := by
  induction d with
  | nil => simp [dictInsert, dictGet]
  | cons kv rest ih =>
    by_cases h : kv.1 = k
    · simp [dictInsert, dictGet, h]
    · simp [dictInsert, dictGet, h, ih]

theorem mem_dictInsert {α : Type} (k : Str) (v : α) (d : List (Str × α))
    (kv' : Str × α) (h : kv' ∈ dictInsert k v d) : kv' ∈ d ∨ kv' = (k, v) := by
  induction d with
  | nil => simpa [dictInsert] using h
  | cons kv rest ih =>
    by_cases hk : kv.1 = k
    · rw [dictInsert, if_pos hk] at h
      rcases List.mem_cons.mp h with h | h
      · exact Or.inr h
      · exact Or.inl (List.mem_cons_of_mem kv h)
    · rw [dictInsert, if_neg hk] at h
      rcases List.mem_cons.mp h with h | h
      · exact Or.inl (h ▸ List.mem_cons_self kv rest)
      · rcases ih h with h | h
        · exact Or.inl (List.mem_cons_of_mem kv h)
        · exact Or.inr h

theorem mem_map_fst_dictInsert {α : Type} (k : Str) (v : α) (d : List (Str × α))
    (x : Str) : x ∈ (dictInsert k v d).map Prod.fst ↔ x ∈ d.map Prod.fst ∨ x = k := by
  induction d with
  | nil => simp [dictInsert]
  | cons kv rest ih =>
    by_cases hk : kv.1 = k
    · subst hk
      rw [dictInsert, if_pos rfl]
      simp only [List.map_cons, List.mem_cons]
      tauto
    · rw [dictInsert, if_neg hk]
      simp only [List.map_cons, List.mem_cons, ih]
      tauto

theorem keys_nodup_dictInsert {α : Type} (k : Str) (v : α) (d : List (Str × α))
    (h : (d.map Prod.fst).Nodup) : ((dictInsert k v d).map Prod.fst).Nodup := by
  induction d with
  | nil => simp [dictInsert]
  | cons kv rest ih =>
    simp only [List.map_cons, List.nodup_cons] at h
    by_cases hk : kv.1 = k
    · subst hk
      rw [dictInsert, if_pos rfl]
      simp only [List.map_cons, List.nodup_cons]
      exact h
    · rw [dictInsert, if_neg hk]
      simp only [List.map_cons, List.nodup_cons]
      refine ⟨?_, ih h.2⟩
      rw [mem_map_fst_dictInsert]
      rintro (hx | hx)
      · exact h.1 hx
      · exact hk hx

/-- Every entry of a successful `_parse_repository_modular` run comes from
one of the input streams, with `_get_filename` mapped over its artifacts. -/
theorem parseRepositoryModular_mem_aux (streams : List (Str × List Str)) :
    ∀ cts mod : List (Str × List Str),
      List.foldlM modularStep cts streams = some mod →
      ∀ kv ∈ mod, kv ∈ cts ∨
        ∃ arts, (kv.1, arts) ∈ streams ∧ arts.mapM getFilename = some kv.2 := by
  induction streams with
  | nil =>
    intro cts mod h kv hkv
    rw [List.foldlM_nil] at h
    have h' : cts = mod := Option.some.inj h
    exact Or.inl (h' ▸ hkv)
  | cons st rest ih =>
    intro cts mod h kv hkv
    rw [List.foldlM_cons] at h
    cases hstep : modularStep cts st with
    | none =>
      rw [hstep] at h
      have h' : (none : Option (List (Str × List Str))) = some mod := h
      exact Option.noConfusion h'
    | some cts' =>
      rw [hstep] at h
      have h2 : List.foldlM modularStep cts' rest = some mod := h
      rcases ih cts' mod h2 kv hkv with hin | ⟨arts, hmem, hmap⟩
      · unfold modularStep at hstep
        cases hmapM : st.2.mapM getFilename with
        | none =>
          rw [hmapM] at hstep
          have h' : (none : Option (List (Str × List Str))) = some cts' := hstep
          exact Option.noConfusion h'
        | some paths =>
          rw [hmapM] at hstep
          have h3 : dictInsert st.1 paths cts = cts' := Option.some.inj hstep
          rcases mem_dictInsert st.1 paths cts kv (h3 ▸ hin) with h' | h'
          · exact Or.inl h'
          · refine Or.inr ⟨st.2, ?_, ?_⟩
            · rw [h']; exact List.mem_cons_self st rest
            · rw [h']; exact hmapM
      · exact Or.inr ⟨arts, List.mem_cons_of_mem st hmem, hmap⟩

theorem parseRepositoryModular_mem (streams mod : List (Str × List Str))
    (h : parseRepositoryModular streams = some mod) (kv : Str × List Str)
    (hkv : kv ∈ mod) :
    ∃ arts, (kv.1, arts) ∈ streams ∧ arts.mapM getFilename = some kv.2 := by
  rcases parseRepositoryModular_mem_aux streams [] mod h kv hkv with h' | h'
  · exact absurd h' (List.not_mem_nil kv)
  · exact h'

theorem parseRepositoryModular_keys_nodup_aux (streams : List (Str × List Str)) :
    ∀ cts mod : List (Str × List Str), (cts.map Prod.fst).Nodup →
      List.foldlM modularStep cts streams = some mod →
      (mod.map Prod.fst).Nodup := by
  induction streams with
  | nil =>
    intro cts mod hnd h
    rw [List.foldlM_nil] at h
    have h' : cts = mod := Option.some.inj h
    exact h' ▸ hnd
  | cons st rest ih =>
    intro cts mod hnd h
    rw [List.foldlM_cons] at h
    cases hstep : modularStep cts st with
    | none =>
      rw [hstep] at h
      have h' : (none : Option (List (Str × List Str))) = some mod := h
      exact Option.noConfusion h'
    | some cts' =>
      rw [hstep] at h
      have h2 : List.foldlM modularStep cts' rest = some mod := h
      refine ih cts' mod ?_ h2
      unfold modularStep at hstep
      cases hmapM : st.2.mapM getFilename with
      | none =>
        rw [hmapM] at hstep
        have h' : (none : Option (List (Str × List Str))) = some cts' := hstep
        exact Option.noConfusion h'
      | some paths =>
        rw [hmapM] at hstep
        have h3 : dictInsert st.1 paths cts = cts' := Option.some.inj hstep
        exact h3 ▸ keys_nodup_dictInsert st.1 paths cts hnd

theorem parseRepositoryModular_keys_nodup (streams mod : List (Str × List Str))
    (h : parseRepositoryModular streams = some mod) : (mod.map Prod.fst).Nodup :=
  parseRepositoryModular_keys_nodup_aux streams [] mod (by simp) h

theorem parse_repository_eq (index : List Str) (streams mod : List (Str × List Str))
    (hmod : parseRepositoryModular streams = some mod) :
    parse_repository index streams = some
      (dictInsert "non_modular".toList
        (PkgColl.pset (parseRepositoryNonModular index (getModularPkgset mod)))
        (mod.map (fun kv => (kv.1, PkgColl.plist kv.2)))) := by
  unfold parse_repository
  rw [hmod]
  rfl

/-- C1: a package of the index lands in the `non_modular` partition iff its
path is absent from the union of all modules' package sets, and the
non-modular set is disjoint from every module's package list. -/
theorem nonModular_partition_iff (index : List Str)
    (streams mod : List (Str × List Str)) (pmap : List (Str × PkgColl))
    (hmod : parseRepositoryModular streams = some mod)
    (hmap : parse_repository index streams = some pmap) :
    ∃ nm : List Str,
      dictGet "non_modular".toList pmap = some (PkgColl.pset nm) ∧
      (∀ p ∈ index, p ∈ nm ↔ p ∉ getModularPkgset mod) ∧
      (∀ kv ∈ mod, ∀ p ∈ nm, p ∉ kv.2) := by
  rw [parse_repository_eq index streams mod hmod] at hmap
  have hpm := (Option.some.inj hmap).symm
  refine ⟨parseRepositoryNonModular index (getModularPkgset mod), ?_, ?_, ?_⟩
  · rw [hpm, dictGet_dictInsert_self]
  · intro p hp
    rw [mem_parseRepositoryNonModular]
    exact ⟨fun h => h.2, fun h => ⟨hp, h⟩⟩
  · intro kv hkv p hpnm hc
    have h2 := (mem_parseRepositoryNonModular index (getModularPkgset mod) p).mp hpnm
    exact h2.2 ((mem_getModularPkgset mod p).mpr ⟨kv, hkv, hc⟩)

/-- C10: the final partition dict always carries the key `non_modular`,
holding the computed non-modular set — even when a module stream is
literally named `non_modular`, whose list is then silently overwritten —
and the dict's keys are pairwise distinct. -/
theorem partition_map_nonmodular_key (index : List Str)
    (streams mod : List (Str × List Str)) (pmap : List (Str × PkgColl))
    (hmod : parseRepositoryModular streams = some mod)
    (hmap : parse_repository index streams = some pmap) :
    dictGet "non_modular".toList pmap
      = some (PkgColl.pset (parseRepositoryNonModular index (getModularPkgset mod))) ∧
    (pmap.map Prod.fst).Nodup := by
  rw [parse_repository_eq index streams mod hmod] at hmap
  have hpm := (Option.some.inj hmap).symm
  constructor
  · rw [hpm, dictGet_dictInsert_self]
  · rw [hpm]
    refine keys_nodup_dictInsert _ _ _ ?_
    have hkeys : ((mod.map fun kv => (kv.1, PkgColl.plist kv.2)).map Prod.fst)
        = mod.map Prod.fst := by
      rw [List.map_map]
      rfl
    rw [hkeys]
    exact parseRepositoryModular_keys_nodup streams mod hmod

/-- C3 counterexample: a module stream declaring the same artifact twice
yields a module partition whose list holds the same path twice — the
final per-partition collection of a module is not deduplicated. -/
theorem partition_duplicates_counterexample :
    parse_repository []
        [("m:s:1:c".toList, ["a-0:1-2.x".toList, "a-0:1-2.x".toList])]
      = some [("m:s:1:c".toList,
          PkgColl.plist ["Packages/a-1-2.x.rpm".toList, "Packages/a-1-2.x.rpm".toList]),
          ("non_modular".toList, PkgColl.pset [])] ∧
    ¬ (["Packages/a-1-2.x.rpm".toList, "Packages/a-1-2.x.rpm".toList] : List Str).Nodup := by
  constructor
  · rfl
  · decide

/-- C3 amended: only the `non_modular` partition is deduplicated (it is a
set); every module partition holds exactly the list of paths derived from
its stream's artifacts, duplicates included. -/
theorem partition_dedup_amended (index : List Str)
    (streams mod : List (Str × List Str)) (pmap : List (Str × PkgColl))
    (hmod : parseRepositoryModular streams = some mod)
    (hmap : parse_repository index streams = some pmap) :
    (∃ nm : List Str, dictGet "non_modular".toList pmap = some (PkgColl.pset nm)
      ∧ nm.Nodup) ∧
    (∀ kv ∈ pmap, kv.1 ≠ "non_modular".toList →
      ∃ arts paths, (kv.1, arts) ∈ streams ∧ arts.mapM getFilename = some paths ∧
        kv.2 = PkgColl.plist paths) := by
  rw [parse_repository_eq index streams mod hmod] at hmap
  have hpm := (Option.some.inj hmap).symm
  constructor
  · exact ⟨parseRepositoryNonModular index (getModularPkgset mod),
      by rw [hpm, dictGet_dictInsert_self],
      nodup_parseRepositoryNonModular index (getModularPkgset mod)⟩
  · intro kv hkv hne
    rw [hpm] at hkv
    rcases mem_dictInsert _ _ _ kv hkv with hin | heq
    · rcases List.mem_map.mp hin with ⟨kv0, hkv0, hkveq⟩
      rcases parseRepositoryModular_mem streams mod hmod kv0 hkv0 with ⟨arts, hmem, hmap'⟩
      refine ⟨arts, kv0.2, ?_, hmap', ?_⟩
      · rw [← hkveq]
        exact hmem
      · rw [← hkveq]
    · exact absurd (congrArg Prod.fst heq) hne

/-! ### Concrete classification example (witness inputs) -/

/-- Example package index: one claimed and one unclaimed location. -/
def exIndex : List Str := ["Packages/a-1-2.x.rpm".toList, "Packages/c-9-9.z.rpm".toList]

/-- Example module index with a single stream. -/
def exStreams : List (Str × List Str) := [("m:s:1:c".toList, ["a-0:1-2.x".toList])]

/-- The modular dict computed from `exStreams`. -/
def exMod : List (Str × List Str) := [("m:s:1:c".toList, ["Packages/a-1-2.x.rpm".toList])]

/-- The partition map computed from `exIndex` and `exStreams`. -/
def exPmap : List (Str × PkgColl) :=
  [("m:s:1:c".toList, PkgColl.plist ["Packages/a-1-2.x.rpm".toList]),
   ("non_modular".toList, PkgColl.pset ["Packages/c-9-9.z.rpm".toList])]

/-- Example module index whose only stream is literally named `non_modular`. -/
def exStreamsClash : List (Str × List Str) :=
  [("non_modular".toList, ["a-0:1-2.x".toList])]

/-- The modular dict computed from `exStreamsClash`. -/
def exModClash : List (Str × List Str) :=
  [("non_modular".toList, ["Packages/a-1-2.x.rpm".toList])]

/-- The partition map computed from `exIndex` and `exStreamsClash`: the
stream's list has been overwritten by the computed non-modular set. -/
def exPmapClash : List (Str × PkgColl) :=
  [("non_modular".toList, PkgColl.pset ["Packages/c-9-9.z.rpm".toList])]

theorem nonModular_partition_iff_witness :
    ∃ nm : List Str,
      dictGet "non_modular".toList exPmap = some (PkgColl.pset nm) ∧
      (∀ p ∈ exIndex, p ∈ nm ↔ p ∉ getModularPkgset exMod) ∧
      (∀ kv ∈ exMod, ∀ p ∈ nm, p ∉ kv.2) :=
  nonModular_partition_iff exIndex exStreams exMod exPmap rfl rfl

theorem partition_map_nonmodular_key_witness :
    dictGet "non_modular".toList exPmapClash
      = some (PkgColl.pset (parseRepositoryNonModular exIndex
          (getModularPkgset exModClash))) ∧
    (exPmapClash.map Prod.fst).Nodup :=
  partition_map_nonmodular_key exIndex exStreamsClash exModClash exPmapClash rfl rfl

theorem partition_dedup_amended_witness :
    (∃ nm : List Str, dictGet "non_modular".toList exPmap = some (PkgColl.pset nm)
      ∧ nm.Nodup) ∧
    (∀ kv ∈ exPmap, kv.1 ≠ "non_modular".toList →
      ∃ arts paths, (kv.1, arts) ∈ exStreams ∧ arts.mapM getFilename = some paths ∧
        kv.2 = PkgColl.plist paths) :=
  partition_dedup_amended exIndex exStreams exMod exPmap rfl rfl

theorem getFilename_eq_witness :
    getFilename ("pkg".toList ++ '-' :: (("1".toList ++ ':' :: "2.0".toList)
        ++ '-' :: ("3.el8".toList ++ '.' :: "x86_64".toList)))
      = some ("Packages/".toList ++ "pkg".toList ++ '-' :: "2.0".toList
          ++ '-' :: ("3.el8".toList ++ '.' :: "x86_64".toList) ++ ".rpm".toList) :=
  getFilename_eq "pkg".toList "1".toList "2.0".toList "3.el8".toList "x86_64".toList
    (by decide) (by decide) (by decide) (by decide) (by decide)

theorem filename_roundtrip_witness :
    ∃ fname : Str,
      getFilename ("pkg".toList ++ '-' :: (("1".toList ++ ':' :: "2.0".toList)
          ++ '-' :: ("3.el8".toList ++ '.' :: "x86_64".toList)))
        = some ("Packages/".toList ++ fname ++ ".rpm".toList) ∧
      rsplit2 '-' fname = ["pkg".toList, "2.0".toList,
        "3.el8".toList ++ '.' :: "x86_64".toList] :=
  filename_roundtrip "pkg".toList "1".toList "2.0".toList "3.el8".toList "x86_64".toList
    (by decide) (by decide) (by decide) (by decide) (by decide)

theorem getFilename_no_colon_witness :
    ∃ x ev ra : Str, rsplit2 '-' ("pkg-2.0-3.el8.x86_64".toList) = [x, ev, ra] ∧
      (':' ∉ ev → getFilename ("pkg-2.0-3.el8.x86_64".toList) = none) :=
  getFilename_no_colon ("pkg-2.0-3.el8.x86_64".toList) (by decide)

/-! ## Filesystem model, validator and materializer -/

/-- A flat model of the filesystem: which paths are directories, regular
files, and symbolic links.  Symlink targets are not tracked (nothing in
the program reads them back), so a `links` entry may be dangling. -/
structure FS where
  dirs : List Str
  files : List Str
  links : List Str
deriving DecidableEq

/-- `os.path.exists` / the existence checks of `os.mkdir`, `os.link` and
`os.symlink` destinations, collapsed to one notion of presence. -/
def FS.pathExists (fs : FS) (p : Str) : Bool :=
  decide (p ∈ fs.dirs) || decide (p ∈ fs.files) || decide (p ∈ fs.links)

/-- `os.mkdir`: record a new directory (callers guard existence). -/
def FS.mkdir (fs : FS) (p : Str) : FS := { fs with dirs := fs.dirs ++ [p] }

/-- `os.path.join` for the relative paths this program builds. -/
def pathJoin (a b : Str) : Str := a ++ '/' :: b

/-- Boolean prefix test on character lists. -/
def isPref : Str → Str → Bool
  | [], _ => true
  | _ :: _, [] => false
  | a :: as, b :: bs => if a = b then isPref as bs else false

/-- `len(os.listdir(d)) != 0`: some recorded path lies strictly inside `d`. -/
def FS.dirNonEmpty (fs : FS) (d : Str) : Bool :=
  (fs.dirs ++ fs.files ++ fs.links).any (fun p => isPref (d ++ ['/']) p)

/-- `os.path.split(p)[1]`: the final path component. -/
def basename (p : Str) : Str := (splitOnChar '/' p).getLastD []

/-- The `--action` placement strategies. -/
inductive Action where
  | copy
  | hardlink
  | symlink
deriving DecidableEq

/-- Embedding of `validate_filenames` (lines 104-111): scan every
(partition key, package path) pair, collecting the flag `isok` and the
reported `(path, key)` pairs of the `print` calls, in order. -/
def validateFilenames (fs : FS) (directory : Str)
    (repoinfo : List (Str × PkgColl)) : Bool × List (Str × Str) :=
  repoinfo.foldl
    (fun acc kv => kv.2.toList.foldl
      (fun acc2 pkg =>
        if fs.pathExists (pathJoin directory pkg) then acc2
        else (false, acc2.2 ++ [(pkg, kv.1)]))
      acc)
    (true, [])

/-- Embedding of `_perform_action` (lines 114-125).  `copy` swallows a
missing source (`except FileNotFoundError: pass`); `os.link` raises on a
missing source or an existing destination; `os.symlink` never inspects
the source and raises only on an existing destination. -/
def performAction (action : Action) (fs : FS) (src dst : Str) : Except Str FS :=
  match action with
  | .copy =>
    if src ∈ fs.files then .ok { fs with files := setAdd fs.files dst }
    else .ok fs
  | .hardlink =>
    if src ∈ fs.files then
      if fs.pathExists dst then .error "FileExistsError".toList
      else .ok { fs with files := fs.files ++ [dst] }
    else .error "FileNotFoundError".toList
  | .symlink =>
    if fs.pathExists dst then .error "FileExistsError".toList
    else .ok { fs with links := fs.links ++ [dst] }

/-- The per-partition loop of `perform_split` (lines 133-138): run the
placement action on each (src, dst) pair in order; a raised error aborts
the rest, returning the state reached so far. -/
def runActions (action : Action) : List (Str × Str) → FS → FS × Option Str
  | [], fs => (fs, none)
  | (src, dst) :: rest, fs =>
    match performAction action fs src dst with
    | .ok fs2 => runActions action rest fs2
    | .error e => (fs, some e)

/-- Embedding of `perform_split` (lines 128-138): per partition, `mkdir`
the partition directory (an existing one raises) and place each package
file; any raised error aborts the remaining work. -/
def perform_split (repository target : Str) (action : Action) :
    List (Str × PkgColl) → FS → FS × Option Str
  | [], fs => (fs, none)
  | kv :: rest, fs =>
    let targetdir := pathJoin target kv.1
    if fs.pathExists targetdir then (fs, some "FileExistsError".toList)
    else
      match runActions action
          (kv.2.toList.map (fun pkg =>
            (pathJoin repository pkg, pathJoin targetdir (basename pkg))))
          (fs.mkdir targetdir) with
      | (fs2, some e) => (fs2, some e)
      | (fs2, none) => perform_split repository target action rest fs2

theorem validate_inner (fs : FS) (dir key : Str) (pkgs : List Str) :
    ∀ acc : Bool × List (Str × Str),
      pkgs.foldl (fun acc2 pkg =>
        if fs.pathExists (pathJoin dir pkg) then acc2
        else (false, acc2.2 ++ [(pkg, key)])) acc
      = (acc.1 && pkgs.all (fun pkg => fs.pathExists (pathJoin dir pkg)),
         acc.2 ++ (pkgs.filter (fun pkg => ! fs.pathExists (pathJoin dir pkg))).map
           (fun pkg => (pkg, key))) := by
  induction pkgs with
  | nil => intro acc; simp
  | cons p ps ih =>
    intro acc
    simp only [List.foldl_cons, List.all_cons, List.filter_cons]
    cases hp : fs.pathExists (pathJoin dir p) with
    | true => simp [ih]
    | false => simp [ih]

theorem validate_outer (fs : FS) (dir : Str) (ri : List (Str × PkgColl)) :
    ∀ acc : Bool × List (Str × Str),
      ri.foldl
        (fun acc kv => kv.2.toList.foldl
          (fun acc2 pkg =>
            if fs.pathExists (pathJoin dir pkg) then acc2
            else (false, acc2.2 ++ [(pkg, kv.1)]))
          acc) acc
      = (acc.1 && ri.all (fun kv =>
            kv.2.toList.all (fun pkg => fs.pathExists (pathJoin dir pkg))),
         acc.2 ++ (ri.map (fun kv =>
            (kv.2.toList.filter (fun pkg => ! fs.pathExists (pathJoin dir pkg))).map
              (fun pkg => (pkg, kv.1)))).flatten) := by
  induction ri with
  | nil => intro acc; simp
  | cons kv rest ih =>
    intro acc
    simp only [List.foldl_cons, List.all_cons, List.map_cons, List.flatten_cons]
    rw [validate_inner fs dir kv.1 kv.2.toList acc, ih]
    simp [Bool.and_assoc]

/-- C6: the validator scans every (partition key, package path) pair
without stopping, reporting each missing pair together with its owning
key, and its overall flag is `false` exactly when at least one listed
path is missing under the repository root. -/
theorem validateFilenames_spec (fs : FS) (dir : Str) (ri : List (Str × PkgColl)) :
    (validateFilenames fs dir ri).2
      = (ri.map (fun kv =>
          (kv.2.toList.filter (fun pkg => ! fs.pathExists (pathJoin dir pkg))).map
            (fun pkg => (pkg, kv.1)))).flatten ∧
    ((validateFilenames fs dir ri).1 = false ↔
      ∃ kv ∈ ri, ∃ pkg ∈ kv.2.toList, fs.pathExists (pathJoin dir pkg) = false) := by
  unfold validateFilenames
  rw [validate_outer fs dir ri (true, [])]
  constructor
  · simp
  · simp only [Bool.true_and, Bool.eq_false_iff, ne_eq, List.all_eq_true]
    constructor
    · intro h
      by_contra hne
      push_neg at hne
      exact h hne
    · rintro ⟨kv, hkv, pkg, hpkg, hp⟩ hall
      exact hp (hall kv hkv pkg hpkg)

/-- C5 amended: with a missing source file, `copy` raises no error and
creates no destination file, while `hardlink` raises a fatal
`FileNotFoundError` that surfaces before any later file of the same
partition is processed.  (The symlink strategy, contrary to the original
claim, silently creates a dangling link — see the counterexample.) -/
theorem materialize_missing_source (fs : FS) (src dst : Str)
    (post : List (Str × Str)) (hs : src ∉ fs.files) :
    performAction Action.copy fs src dst = Except.ok fs ∧
    performAction Action.hardlink fs src dst
      = Except.error "FileNotFoundError".toList ∧
    runActions Action.hardlink ((src, dst) :: post) fs
      = (fs, some "FileNotFoundError".toList) := by
  have hcopy : performAction Action.copy fs src dst = Except.ok fs := by
    simp only [performAction]
    rw [if_neg hs]
  have hlink : performAction Action.hardlink fs src dst
      = Except.error "FileNotFoundError".toList := by
    simp only [performAction]
    rw [if_neg hs]
  refine ⟨hcopy, hlink, ?_⟩
  simp only [runActions, hlink]

/-- C5 counterexample: with the symlink strategy a missing source raises
no error — `os.symlink` creates a dangling link without inspecting the
source, contradicting the claim that a missing source is fatal for the
symlink strategy. -/
theorem symlink_missing_source_counterexample :
    "repo/a".toList ∉ (FS.mk [] [] []).files ∧
    performAction Action.symlink (FS.mk [] [] []) "repo/a".toList "tgt/a".toList
      = Except.ok (FS.mk [] [] ["tgt/a".toList]) := by
  constructor
  · decide
  · rfl

theorem materialize_missing_source_witness :
    performAction Action.copy (FS.mk [] [] []) "repo/a".toList "tgt/a".toList
      = Except.ok (FS.mk [] [] []) ∧
    performAction Action.hardlink (FS.mk [] [] []) "repo/a".toList "tgt/a".toList
      = Except.error "FileNotFoundError".toList ∧
    runActions Action.hardlink
        [("repo/a".toList, "tgt/a".toList), ("repo/b".toList, "tgt/b".toList)]
        (FS.mk [] [] [])
      = (FS.mk [] [] [], some "FileNotFoundError".toList) :=
  materialize_missing_source (FS.mk [] [] []) "repo/a".toList "tgt/a".toList
    [("repo/b".toList, "tgt/b".toList)] (by decide)

/-! ## Command surface and `main` -/

/-- The parsed command-line arguments (`parse_args`, lines 148-165).
`--default` is accepted but never read, so it is omitted. -/
structure Args where
  repository : Str
  action : Action
  target : Option Str
  skipMissing : Bool
  createRepos : Bool
deriving DecidableEq

/-- The repository metadata as the Metadata Reader delivers it:
whether a module-definition artifact is present (`'modules' in
repo_info`), the package index locations, and the module streams. -/
structure RepoMeta where
  hasModules : Bool
  index : List Str
  streams : List (Str × List Str)

/-- Observable program state: the filesystem, the stdout lines printed,
and the external processes spawned (`createrepo_c` invocations). -/
structure World where
  fs : FS
  stdout : List Str
  procs : List Str
deriving DecidableEq

/-- How a run of `main` ends. -/
inductive MainResult where
  | exited : Nat → MainResult
  | completed : MainResult
  | raised : Str → MainResult
deriving DecidableEq

def noticeNoModules1 : Str := "This repository has no modules defined.".toList

def noticeNoModules2 : Str := "Grobisplitter only works on repos with modules.".toList

/-- The formatted line of `print("Path %s from mod %s did not exist")`. -/
def missingMsg (pkg modname : Str) : Str :=
  "Path ".toList ++ pkg ++ " from mod ".toList ++ modname ++ " did not exist".toList

/-- Embedding of `setup_target` (lines 168-181): with no `--target` do
nothing; otherwise an existing non-directory or non-empty-directory
target raises `ValueError`, an existing empty directory is kept, and a
missing target is created.  (`os.path.abspath` is modelled as the
identity: paths are abstract names here.) -/
def setupTargetSome (t : Str) (fs : FS) : Except Str FS :=
  if fs.pathExists t then
    if t ∉ fs.dirs then .error "Target must be a directory".toList
    else if fs.dirNonEmpty t then .error "Target must be empty".toList
    else .ok fs
  else .ok (fs.mkdir t)

def setup_target (args : Args) (fs : FS) : Except Str FS :=
  match args.target with
  | none => .ok fs
  | some t => setupTargetSome t fs

theorem setup_target_some_eq (args : Args) (fs : FS) (t : Str)
    (ht : args.target = some t) : setup_target args fs = setupTargetSome t fs := by
  unfold setup_target
  rw [ht]

/-- Embedding of `create_repos` (lines 141-145): one `createrepo_c`
invocation per partition directory, recorded in order. -/
def create_repos (target : Str) (repos : List (Str × PkgColl))
    (procs : List Str) : List Str :=
  procs ++ repos.map (fun kv => pathJoin target kv.1)

/-- The tail of `main` (lines 221-224): materialize into the target, then
optionally regenerate repository metadata. -/
def runSplit (args : Args) (repos : List (Str × PkgColl)) (w : World) :
    MainResult × World :=
  match args.target with
  | none => (.completed, w)
  | some t =>
    match perform_split args.repository t args.action repos w.fs with
    | (fs2, some e) => (.raised e, { w with fs := fs2 })
    | (fs2, none) =>
      if args.createRepos then
        (.completed, { w with fs := fs2, procs := create_repos t repos w.procs })
      else (.completed, { w with fs := fs2 })

/-- Embedding of `main` (lines 209-224) together with the metadata check
of `parse_repository` (lines 196-199): set up the target, exit 0 with a
two-line notice when the repository has no module metadata, classify,
validate unless `--skip-missing`, then split.  A `none` from the
classification models the YAML-failure exceptions of
`_parse_repository_modular`. -/
def main (args : Args) (meta : RepoMeta) (w : World) : MainResult × World :=
  match setup_target args w.fs with
  | .error e => (.raised e, w)
  | .ok fs1 =>
    if meta.hasModules = false then
      (.exited 0, { w with
          fs := fs1
          stdout := w.stdout ++ [noticeNoModules1, noticeNoModules2] })
    else
      match parse_repository meta.index meta.streams with
      | none => (.raised "YAML FAILURE".toList, { w with fs := fs1 })
      | some repos =>
        if args.skipMissing = false then
          let vres := validateFilenames fs1 args.repository repos
          let w2 : World := { w with
            fs := fs1
            stdout := w.stdout ++ vres.2.map (fun pr => missingMsg pr.1 pr.2) }
          if vres.1 = false then
            (.raised "Package files were missing!".toList, w2)
          else runSplit args repos w2
        else runSplit args repos { w with fs := fs1 }

theorem setup_target_ok_fs (args : Args) (fs fs1 : FS)
    (h : setup_target args fs = Except.ok fs1) :
    fs1 = fs ∨ ∃ t, args.target = some t ∧ fs1 = fs.mkdir t := by
  cases ht : args.target with
  | none =>
    unfold setup_target at h
    rw [ht] at h
    exact Or.inl (Except.ok.inj h).symm
  | some t =>
    rw [setup_target_some_eq args fs t ht] at h
    unfold setupTargetSome at h
    by_cases hex : fs.pathExists t = true
    · rw [if_pos hex] at h
      by_cases hdir : t ∉ fs.dirs
      · rw [if_pos hdir] at h
        exact absurd h (by simp)
      · rw [if_neg hdir] at h
        by_cases hne : fs.dirNonEmpty t = true
        · rw [if_pos hne] at h
          exact absurd h (by simp)
        · rw [if_neg hne] at h
          exact Or.inl (Except.ok.inj h).symm
    · rw [if_neg hex] at h
      exact Or.inr ⟨t, rfl, (Except.ok.inj h).symm⟩

/-- C2 amended: on a repository without module metadata the program
prints the two-line notice and exits with status 0, with no
classification, validation or materialization; the only filesystem
change possible is the one `setup_target` already made — creating the
target directory when a fresh `--target` was supplied. -/
theorem no_modules_clean_exit (args : Args) (meta : RepoMeta) (w : World)
    (fs1 : FS) (hsetup : setup_target args w.fs = Except.ok fs1)
    (hnm : meta.hasModules = false) :
    main args meta w = (MainResult.exited 0, { w with
      fs := fs1
      stdout := w.stdout ++ [noticeNoModules1, noticeNoModules2] }) ∧
    (fs1 = w.fs ∨ ∃ t, args.target = some t ∧ fs1 = w.fs.mkdir t) := by
  constructor
  · unfold main
    rw [hsetup]
    simp [hnm]
  · exact setup_target_ok_fs args w.fs fs1 hsetup

/-- C2 counterexample: with `--target` naming a fresh path, the target
directory is created by `setup_target` before the no-modules check makes
the program exit 0 — the run is not free of filesystem mutations. -/
theorem no_modules_mutation_counterexample :
    main (Args.mk "repo".toList Action.hardlink (some "tgt".toList) false false)
        (RepoMeta.mk false [] [])
        (World.mk (FS.mk [] [] []) [] [])
      = (MainResult.exited 0,
         World.mk (FS.mk ["tgt".toList] [] [])
           [noticeNoModules1, noticeNoModules2] []) ∧
    FS.mk ["tgt".toList] [] [] ≠ FS.mk [] [] [] := by
  constructor
  · rfl
  · decide

theorem no_modules_clean_exit_witness :
    main (Args.mk "repo".toList Action.hardlink (some "tgt".toList) false false)
        (RepoMeta.mk false [] [])
        (World.mk (FS.mk [] [] []) [] [])
      = (MainResult.exited 0,
         { World.mk (FS.mk [] [] []) [] [] with
           fs := FS.mk ["tgt".toList] [] []
           stdout := [] ++ [noticeNoModules1, noticeNoModules2] }) ∧
    (FS.mk ["tgt".toList] [] [] = FS.mk [] [] [] ∨
      ∃ t, (Args.mk "repo".toList Action.hardlink (some "tgt".toList) false
        false).target = some t ∧ FS.mk ["tgt".toList] [] []
          = (FS.mk [] [] []).mkdir t) :=
  no_modules_clean_exit
    (Args.mk "repo".toList Action.hardlink (some "tgt".toList) false false)
    (RepoMeta.mk false [] []) (World.mk (FS.mk [] [] []) [] [])
    (FS.mk ["tgt".toList] [] []) rfl rfl

/-- C7: a target that exists as a non-directory, or as a non-empty
directory, raises a fatal error before any classification work: the
outcome is an error with the world untouched, whatever the repository
metadata and the other options are. -/
theorem bad_target_fatal (args : Args) (meta : RepoMeta) (w : World) (t : Str)
    (ht : args.target = some t) (hex : w.fs.pathExists t = true)
    (hbad : t ∉ w.fs.dirs ∨ w.fs.dirNonEmpty t = true) :
    ∃ e, main args meta w = (MainResult.raised e, w) := by
  have hsetup : ∃ e, setup_target args w.fs = Except.error e := by
    rw [setup_target_some_eq args w.fs t ht]
    unfold setupTargetSome
    rw [if_pos hex]
    by_cases hdir : t ∉ w.fs.dirs
    · rw [if_pos hdir]
      exact ⟨_, rfl⟩
    · rw [if_neg hdir]
      rcases hbad with hbad | hbad
      · exact absurd hbad hdir
      · rw [if_pos hbad]
        exact ⟨_, rfl⟩
  rcases hsetup with ⟨e, he⟩
  refine ⟨e, ?_⟩
  unfold main
  rw [he]

theorem bad_target_fatal_witness :
    ∃ e, main (Args.mk "repo".toList Action.hardlink (some "tgt".toList) false false)
        (RepoMeta.mk true ["Packages/a-1-2.x.rpm".toList] [])
        (World.mk (FS.mk ["tgt".toList] ["tgt/junk".toList] []) [] [])
      = (MainResult.raised e,
         World.mk (FS.mk ["tgt".toList] ["tgt/junk".toList] []) [] []) :=
  bad_target_fatal
    (Args.mk "repo".toList Action.hardlink (some "tgt".toList) false false)
    (RepoMeta.mk true ["Packages/a-1-2.x.rpm".toList] [])
    (World.mk (FS.mk ["tgt".toList] ["tgt/junk".toList] []) [] [])
    "tgt".toList rfl (by decide) (Or.inr (by decide))

end GrobiSplitter
